import Mathlib

/-!
Verification of the pcurses modal controller and filter/search/sort/macro
engine (filter.cpp, src/program.cpp) against its specification.

Texts are embedded as `List Char` (the byte/char sequences C++ `std::string`
holds for the ASCII inputs at issue).  The boost::xpressive regex engine is an
external library; a compiled pattern is modelled as a `List Char → Bool`
matcher ("does the text contain a match"), and `sregex::compile` as a
parameter `rc : List Char → Option (List Char → Bool)` where `none` models a
`regex_error` being thrown (the catch block in `Program::filterpackages`).
-/

/-- An inspectable field of a catalog entry.
Modelled from the spec: the attribute enumeration (AttributeInfo) is not
among the sources; §3/§4.1 describe an enumeration with a sentinel
(`A_NONE`).  Only the attributes the claims exercise are carried. -/
inductive Attr where
  | aName
  | aDesc
  | aVersion
  | aNone
deriving DecidableEq, Repr

/-- A catalog entry.
Modelled from the spec: Package (package.cpp) is not among the sources; §3
and §6 describe an entry exposing a read-only text lookup per attribute,
with the name as its stable identity key. -/
structure Pkg where
  name : List Char
  desc : List Char
  vers : List Char
deriving DecidableEq, Repr

/-- Modelled from the spec: `attribute(key) -> text` lookup of §3/§6.
`A_NONE` never reaches it (clearattrs/setattrs never store the sentinel). -/
def Pkg.getattr (p : Pkg) : Attr → List Char
  | Attr.aName => p.name
  | Attr.aDesc => p.desc
  | Attr.aVersion => p.vers
  | Attr.aNone => []

/-- Modelled from the spec: `AttributeInfo::chartoattr` is not among the
sources; §4.1: single-character code to attribute, unknown characters map to
the sentinel.  The codes used by the claims: the `n`/`d` filter shorthand
keys of §4.4 and the sort scenario of §8. -/
def chartoattr (c : Char) : Attr :=
  if c = 'n' then Attr.aName
  else if c = 'd' then Attr.aDesc
  else if c = 'v' then Attr.aVersion
  else Attr.aNone

/-- ASCII lowercasing, as boost::to_lower performs on the ASCII texts at
issue. -/
def lowerL (s : List Char) : List Char := s.map Char.toLower

/-- Embeds `hay.find(needle) != npos`: does `hay` contain `needle` as a contiguous
substring. -/
def containsCL (needle : List Char) : List Char → Bool
  | [] => needle.isEmpty
  | c :: t => needle.isPrefixOf (c :: t) || containsCL needle t

namespace Filter

/-- filter.cpp `Filter::clearattrs`: reset the active attribute list to the
defaults name, description. -/
def clearattrs : List Attr := [Attr.aName, Attr.aDesc]

/-- filter.cpp `Filter::setattrs`: clear, then for each character in order
map it to an attribute, skipping unmapped characters and duplicates. -/
def setattrs (s : List Char) : List Attr :=
  s.foldl
    (fun acc c =>
      let a := chartoattr c
      if a = Attr.aNone then acc
      else if acc.contains a then acc
      else acc ++ [a])
    []

/-- filter.cpp `Filter::matches` (lines 57–71): lowercase the needle, OR
together substring hits over the active attributes, and return `!found` —
true iff no active-attribute lowercased text contains the needle.
(`matches` is a Lean keyword, hence the `L` suffix.) -/
def matchesL (attrlist : List Attr) (p : Pkg) (needle : List Char) : Bool :=
  let ln := lowerL needle
  ! attrlist.any (fun a => containsCL ln (lowerL (p.getattr a)))

/-- filter.cpp `Filter::matchesre` (lines 48–56): OR together regex hits
(`regex_search` on the raw attribute text) over the active attributes and
return `!found` — true iff no active-attribute text has a match. -/
def matchesre (attrlist : List Attr) (p : Pkg) (m : List Char → Bool) : Bool :=
  ! attrlist.any (fun a => m (p.getattr a))

/-- Modelled from the spec: `Filter::notmatches` is called by
src/program.cpp but absent from the sources.  §4.2 makes the positive-filter
exclusion predicate (`excludesSubstring`) "true iff none of the active
attributes contain needle", and §4.4.1 routes the non-negated substring
filter through it. -/
def notmatches (attrlist : List Attr) (p : Pkg) (needle : List Char) : Bool :=
  let ln := lowerL needle
  ! attrlist.any (fun a => containsCL ln (lowerL (p.getattr a)))

/-- Modelled from the spec: `Filter::notmatchesre` is called by
src/program.cpp but absent from the sources; the `excludesPattern` of §4.2 — true
iff no active-attribute text has a pattern match. -/
def notmatchesre (attrlist : List Attr) (p : Pkg) (m : List Char → Bool) : Bool :=
  ! attrlist.any (fun a => m (p.getattr a))

end Filter

/-- Lexicographic strict comparison of char sequences by code point, the
order `std::string::operator<` computes on these texts. -/
def strLt : List Char → List Char → Bool
  | [], [] => false
  | [], _ :: _ => true
  | _ :: _, [] => false
  | a :: as, b :: bs =>
    if a.toNat < b.toNat then true
    else if b.toNat < a.toNat then false
    else strLt as bs

/-- The reflexive closure of `strLt`, used to state sortedness. -/
def strLe : List Char → List Char → Bool
  | [], _ => true
  | _ :: _, [] => false
  | a :: as, b :: bs =>
    if a.toNat < b.toNat then true
    else if b.toNat < a.toNat then false
    else strLe as bs

/-- filter.cpp `Filter::cmp` (lines 72–74): compares two entries by their
name text only (no attribute argument). -/
def Filter.cmp (lhs rhs : Pkg) : Bool := strLt lhs.name rhs.name

/-- Modelled from the spec: the three-argument comparator
`Filter::cmp(lhs, rhs, attr)` that src/program.cpp binds (loadpkgs,
clearfilter, sortpackages) is absent from the sources — the filter.cpp cmp
takes two arguments and always compares names.  The §4.2
`compareByAttribute(a, b, attribute)`: lexicographic string comparison on
the text of the given attribute. -/
def attrLe (a : Attr) (x y : Pkg) : Prop := strLe (x.getattr a) (y.getattr a) = true

instance (a : Attr) : DecidableRel (attrLe a) := fun x y =>
  inferInstanceAs (Decidable (strLe (x.getattr a) (y.getattr a) = true))

/-! ## Input parsing (src/program.cpp)

`Program::filterpackages` splits its input with the anchored pattern
`^(([A-Za-zq]*)([!]?):)?(.*)`.  Everything in the optional group is greedy
with backtracking, so the group matches exactly when the maximal leading
letter run is followed by an optional `!` and then `:`; otherwise the whole
input is the phrase.  `Program::searchpackages` uses `^([A-Za-z]*):(.*)`
(same letter set — the extra `q` is redundant — and no negation). -/

/-- Split a committed filter input into (fields, negate, phrase) exactly as
the `reprefix` regex of `Program::filterpackages` does. -/
def parseFilter (cs : List Char) : List Char × Bool × List Char :=
  let run := cs.takeWhile Char.isAlpha
  let rest := cs.dropWhile Char.isAlpha
  match rest with
  | ':' :: tail => (run, false, tail)
  | '!' :: ':' :: tail => (run, true, tail)
  | _ => ([], false, cs)

/-- Split a committed search input into (optional fields, phrase) exactly as
the `reprefix` regex of `Program::searchpackages` does; `none` means the
prefix group did not match at all (no `Filter::setattrs` call). -/
def parseSearch (cs : List Char) : Option (List Char) × List Char :=
  let run := cs.takeWhile Char.isAlpha
  let rest := cs.dropWhile Char.isAlpha
  match rest with
  | ':' :: tail => (some run, tail)
  | _ => (none, cs)

/-- The characters of the bracket expression in
`sregex::compile("[:alnum:]+")` (src/program.cpp line 814).  Outside
`[[ ]]`, `[:alnum:]` is an ordinary ECMAScript bracket expression listing
the characters `:`, `a`, `l`, `n`, `u`, `m` — not the POSIX alnum class. -/
def resimpleChar (c : Char) : Bool :=
  c == ':' || c == 'a' || c == 'l' || c == 'n' || c == 'u' || c == 'm'

/-- Embeds `regex_match(searchphrase, what, resimple)`: the whole phrase consists
of one or more characters drawn from the `[:alnum:]` bracket expression. -/
def resimpleMatch (s : List Char) : Bool :=
  !s.isEmpty && s.all resimpleChar

/-! ## Program state

The mutable state of `Program` that the claimed operations touch.  Panes,
cursors and colors live in the external rendering collaborator; of the list
pane only its focused index is modelled (`list_pane->focusedindex()` /
`moveabs`), per the list-view primitives of §6.  `executedCmds` records the
strings handed to the external `run_cmd` collaborator, with `none` marking a
substitution loop that did not finish within the available fuel. -/

/-- The three UI modes (§4.4). -/
inductive PMode where
  | standard
  | input
  | help
deriving DecidableEq, Repr

/-- Embeds `FilterOperationEnum`, in source order (`optostr`/`gethis` switch). -/
inductive FilterOp where
  | opFilter
  | opSort
  | opSearch
  | opColor
  | opExec
  | opMacroCall
  | opNone
deriving DecidableEq, Repr

/-- Embeds `Program::optostr`: the entry key of each operation. -/
def optostr : FilterOp → List Char
  | FilterOp.opFilter => ['/']
  | FilterOp.opSort => ['.']
  | FilterOp.opSearch => ['?']
  | FilterOp.opColor => [';']
  | FilterOp.opExec => ['!']
  | FilterOp.opMacroCall => ['@']
  | FilterOp.opNone => []

/-- The non-sentinel operations in enumeration order, as scanned by
the `for (i = 0; i < OP_NONE; i++)` loop in `Program::strtoopt`. -/
def opsList : List FilterOp :=
  [FilterOp.opFilter, FilterOp.opSort, FilterOp.opSearch,
   FilterOp.opColor, FilterOp.opExec, FilterOp.opMacroCall]

/-- Embeds `Program::strtoopt`: first operation whose key equals the string, else
the sentinel. -/
def strtoopt (s : List Char) : FilterOp :=
  ((opsList.find? (fun o => optostr o == s)).getD FilterOp.opNone)

/-- The `Program` state touched by the claims. -/
structure PState where
  attrlist : List Attr
  filteredpackages : List Pkg
  searchphrases : List Char
  focusedindex : Nat
  sortedby : Attr
  coloredby : Attr
  opqueue : List Pkg
  mode : PMode
  op : FilterOp
  inputbuf : List Char
  hisfilter : List (List Char)
  hissort : List (List Char)
  hissearch : List (List Char)
  hiscolorcode : List (List Char)
  hisexec : List (List Char)
  hisMacroOp : List (List Char)
  executedCmds : List (Option (List Char))
deriving DecidableEq, Repr

/-! ## Filtering (`Program::filterpackages`) -/

/-- The erase loop of `Program::filterpackages`: `find_if` the first entry
satisfying `fn`, erase it, re-search from the same position, until the end —
i.e. remove, left to right, every entry for which `fn` holds, keeping the
others in order. -/
def removeAll (fn : Pkg → Bool) : List Pkg → List Pkg
  | [] => []
  | p :: t => if fn p then removeAll fn t else p :: removeAll fn t

/-- Embeds `if (searchphrases.length() != 0) searchphrases += ", "; searchphrases
+= str;` — the running comma-joined description of applied filters. -/
def appendDesc (old s : List Char) : List Char :=
  if old.isEmpty then s else old ++ [',', ' '] ++ s

/-- Embeds `Program::filterpackages` (src/program.cpp lines 783–849).  `rc` is the
external regex engine: `rc phrase = none` models `sregex::compile(phrase,
icase)` throwing `regex_error` (caught by the try block of the handler), and
`some m` a compiled matcher.  Pane calls (`setlist`, `moveabs`) happen in
`exitinputmode`, not here. -/
def filterpackages (rc : List Char → Option (List Char → Bool))
    (str : List Char) (s : PState) : PState :=
  let s1 := { s with hisfilter := s.hisfilter ++ [str] }
  match parseFilter str with
  | (fields, neg, phrase) =>
    let s2 := { s1 with attrlist := Filter.clearattrs }
    if phrase.isEmpty then s2
    else
      let s3 := if fields.isEmpty then s2
                else { s2 with attrlist := Filter.setattrs fields }
      if resimpleMatch phrase then
        let fn := if neg then fun p => Filter.matchesL s3.attrlist p phrase
                  else fun p => Filter.notmatches s3.attrlist p phrase
        let s4 := { s3 with filteredpackages := removeAll fn s3.filteredpackages }
        { s4 with searchphrases := appendDesc s4.searchphrases str }
      else
        match rc phrase with
        | none => s3
        | some m =>
          let fn := if neg then fun p => Filter.matchesre s3.attrlist p m
                    else fun p => Filter.notmatchesre s3.attrlist p m
          let s4 := { s3 with filteredpackages := removeAll fn s3.filteredpackages }
          { s4 with searchphrases := appendDesc s4.searchphrases str }

/-! ## Searching (`Program::searchpackages`) -/

/-- The scan start of `Program::searchpackages`:
`filteredpackages.begin() + list_pane->focusedindex() + 1`. -/
def searchStart (focused : Nat) : Nat := focused + 1

/-- Embeds `Program::searchpackages` (src/program.cpp lines 714–757).  The
`find_if` predicate is `Filter::matches` bound to the phrase. -/
def searchpackages (str : List Char) (s : PState) : PState :=
  let s1 := { s with hissearch := s.hissearch ++ [str] }
  let s2 := { s1 with attrlist := Filter.clearattrs }
  match parseSearch str with
  | (ofields, phrase) =>
    let s3 := match ofields with
              | some f => { s2 with attrlist := Filter.setattrs f }
              | none => s2
    if phrase.isEmpty then s3
    else
      let pred := fun p => Filter.matchesL s3.attrlist p phrase
      let start := searchStart s3.focusedindex
      match (s3.filteredpackages.drop start).findIdx? pred with
      | some j => { s3 with focusedindex := start + j }
      | none =>
        if start ≠ 0 then
          match s3.filteredpackages.findIdx? pred with
          | some j => { s3 with focusedindex := j }
          | none => s3
        else s3

/-! ## Sorting (`Program::sortpackages`) -/

/-- The attribute scan shared by `sortpackages` and `colorcodepackages`:
first character mapping to a non-sentinel attribute, else the sentinel. -/
def firstattr : List Char → Attr
  | [] => Attr.aNone
  | c :: t =>
    match chartoattr c with
    | Attr.aNone => firstattr t
    | a => a

/-- Embeds `Program::sortpackages` (src/program.cpp lines 759–781).  `std::sort`
with the bound comparator produces a permutation ordered by it; insertion
sort over `attrLe` is the faithful executable realization. -/
def sortpackages (str : List Char) (s : PState) : PState :=
  if str.isEmpty then s
  else
    let s1 := { s with hissort := s.hissort ++ [str] }
    let a := firstattr str
    if a = Attr.aNone then s1
    else { s1 with sortedby := a,
                   filteredpackages := List.insertionSort (attrLe a) s1.filteredpackages }

/-- Embeds `Program::colorcodepackages` (src/program.cpp lines 687–712): same
attribute scan; resets the attribute defaults and records the coloring
attribute (`Filter::assigncol` only feeds the rendering collaborator). -/
def colorcodepackages (str : List Char) (s : PState) : PState :=
  if str.isEmpty then s
  else
    let s1 := { s with hiscolorcode := s.hiscolorcode ++ [str] }
    let a := firstattr str
    if a = Attr.aNone then s1
    else { s1 with attrlist := Filter.clearattrs, coloredby := a }

/-! ## Exec (`Program::execmd`) and the `%p` loop -/

/-- Index of the leftmost occurrence of `%p` (`str.find("%p")`). -/
def findOcc : List Char → Option Nat
  | [] => none
  | [_] => none
  | c :: p :: r =>
    if c == '%' && p == 'p' then some 0
    else (findOcc (p :: r)).map (fun i => i + 1)

/-- Embeds `str.replace(pos, 2, pkgs)` at the leftmost `%p` occurrence (identity if
there is none). -/
def replOcc (pkgs : List Char) : List Char → List Char
  | [] => []
  | [c] => [c]
  | c :: p :: r =>
    if c == '%' && p == 'p' then pkgs ++ r
    else c :: replOcc pkgs (p :: r)

/-- Number of `%p` occurrences in a left-to-right scan. -/
def countOcc : List Char → Nat
  | [] => 0
  | [_] => 0
  | c :: p :: r =>
    if c == '%' && p == 'p' then countOcc r + 1
    else countOcc (p :: r)

/-- The reading of the substitution in claim C9: the input with every `%p`
occurrence (left-to-right) replaced by `pkgs` simultaneously. -/
def replaceEveryOcc (pkgs : List Char) : List Char → List Char
  | [] => []
  | [c] => [c]
  | c :: p :: r =>
    if c == '%' && p == 'p' then pkgs ++ replaceEveryOcc pkgs r
    else c :: replaceEveryOcc pkgs (p :: r)

/-- The `while ((pos = str.find(needle)) != npos) str.replace(pos,
needle.length(), pkgs);` loop of `Program::execmd`, with fuel: `none` means
the loop has not finished after `fuel` replacements. -/
def substIter (pkgs : List Char) : Nat → List Char → Option (List Char)
  | 0, s => match findOcc s with
    | none => some s
    | some _ => none
  | fuel + 1, s => match findOcc s with
    | none => some s
    | some _ => substIter pkgs fuel (replOcc pkgs s)

/-- The space-joined queue name list `pkgs` built by `Program::execmd`. -/
def queueNames (q : List Pkg) : List Char :=
  List.flatten (q.map (fun p => p.name ++ [' ']))

/-- Embeds `Program::execmd` (src/program.cpp lines 667–685): record history,
substitute `%p`, and hand the result to the external `run_cmd` collaborator
(curses teardown/reinit are rendering-side). -/
def execmd (fuel : Nat) (str : List Char) (s : PState) : PState :=
  let s1 := { s with hisexec := s.hisexec ++ [str] }
  { s1 with executedCmds := s1.executedCmds ++ [substIter (queueNames s1.opqueue) fuel str] }

/-! ## Queue append (`Program::mainloop`, KEY_RIGHT) -/

/-- A placeholder entry for out-of-range indexing (the pane invariant keeps
the focused index in range whenever the list is non-empty). -/
def pkgNull : Pkg := { name := [], desc := [], vers := [] }

/-- Embeds `filteredpackages[list_pane->focusedindex()]`. -/
def focusedPkg (s : PState) : Pkg :=
  s.filteredpackages.getD s.focusedindex pkgNull

/-- The KEY_RIGHT handler of `Program::mainloop` (lines 183–193), with the
list pane focused: bail out on an empty view; skip if the focused entry is
already queued (`std::find` over the queue); otherwise push it and advance
the view focus by one (`move(1)`, clamped by the pane). -/
def queueadd (s : PState) : PState :=
  if s.filteredpackages.isEmpty then s
  else
    let p := focusedPkg s
    if p ∈ s.opqueue then s
    else { s with opqueue := s.opqueue ++ [p],
                  focusedindex := min (s.focusedindex + 1) (s.filteredpackages.length - 1) }

/-! ## Macro dispatcher and the Input-mode commit path

`Program::exitinputmode` and `Program::execmacro` are mutually recursive
(a macro part may name the Macro operation again); the embedding carries a
recursion-depth fuel, decreased at each nested macro chain.  With fuel 0 a
macro arm performs nothing — a modelling artifact never reached at
sufficient fuel.  The macro table is the externally supplied configuration
(§6), passed as a parameter `mt`. -/

/-- Embeds `boost::split(strs, str, boost::is_any_of(","))`: split at every comma,
keeping empty tokens. -/
def splitComma : List Char → List (List Char)
  | [] => [[]]
  | c :: t =>
    if c == ',' then [] :: splitComma t
    else
      match splitComma t with
      | [] => [[c]]
      | h :: r => (c :: h) :: r

/-- Embeds `boost::trim`: strip leading and trailing whitespace. -/
def isSpaceC (c : Char) : Bool :=
  c == ' ' || c == '\t' || c == '\n' || c == '\r'

/-- Trim the whitespace around a macro part. -/
def trimL (s : List Char) : List Char :=
  ((s.dropWhile isSpaceC).reverse.dropWhile isSpaceC).reverse

/-- Embeds `macros->find(macropart)` on the externally supplied name→command
table. -/
def lookupMT (mt : List (List Char × List Char)) (k : List Char) : Option (List Char) :=
  (mt.find? (fun e => e.fst == k)).map (fun e => e.snd)

/-- One iteration of the `Program::execmacro` part loop, as a fold step: a
`false` flag means a previous part aborted the chain (`return`); an
unresolved part or a command with no valid operation selector aborts;
otherwise the command tail is placed in the input buffer and the commit
path is re-entered (`step`), exactly as the source
`inputbuf.set(cmd.substr(1)); exitinputmode(op);`. -/
def macroPartGo (mt : List (List Char × List Char))
    (step : FilterOp → PState → PState)
    (acc : PState × Bool) (part : List Char) : PState × Bool :=
  match acc with
  | (st, false) => (st, false)
  | (st, true) =>
    match lookupMT mt part with
    | none => (st, false)
    | some cmd =>
      let o2 := strtoopt (cmd.take 1)
      if o2 = FilterOp.opNone then (st, false)
      else (step o2 { st with inputbuf := cmd.drop 1 }, true)

/-- The unconditional head of `Program::exitinputmode`: back to Standard
mode, pending operation cleared (cursor visibility is rendering-side). -/
def exitPrep (s : PState) : PState :=
  { s with mode := PMode.standard, op := FilterOp.opNone }

/-- The non-macro arms of the `Program::exitinputmode` dispatch switch.  The
Filter arm also performs `list_pane->setlist(..); list_pane->moveabs(0)`. -/
def dispatchArm (rc : List Char → Option (List Char → Bool))
    (fuel : Nat) (o : FilterOp) (s1 : PState) : PState :=
  match o with
  | FilterOp.opFilter => { filterpackages rc s1.inputbuf s1 with focusedindex := 0 }
  | FilterOp.opSort => sortpackages s1.inputbuf s1
  | FilterOp.opSearch => searchpackages s1.inputbuf s1
  | FilterOp.opColor => colorcodepackages s1.inputbuf s1
  | FilterOp.opExec => execmd fuel s1.inputbuf s1
  | _ => s1

/-- Embeds `Program::exitinputmode` (src/program.cpp lines 304–341): reset
mode/operation, do nothing on an empty buffer, else dispatch on the
committed operation; the Macro arm is `Program::execmacro` (lines 636–665):
history add, split on commas, trim, and run each part through
`macroPartGo`. -/
def exitinputmode (rc : List Char → Option (List Char → Bool))
    (mt : List (List Char × List Char)) : Nat → FilterOp → PState → PState
  | 0, o, s =>
    let s1 := exitPrep s
    if s1.inputbuf.isEmpty then s1
    else if o = FilterOp.opMacroCall then s1
    else dispatchArm rc 0 o s1
  | fuel + 1, o, s =>
    let s1 := exitPrep s
    if s1.inputbuf.isEmpty then s1
    else if o = FilterOp.opMacroCall then
      let s2 := { s1 with hisMacroOp := s1.hisMacroOp ++ [s1.inputbuf] }
      (List.foldl
        (fun acc part => macroPartGo mt (fun o2 st => exitinputmode rc mt fuel o2 st) acc part)
        (s2, true)
        ((splitComma s1.inputbuf).map trimL)).fst
    else dispatchArm rc (fuel + 1) o s1

/-- Embeds `Program::prepinputmode`: enter Input mode for `o` with a cleared
buffer (the history browse cursor it also resets is not part of the
modelled state). -/
def prepinputmode (o : FilterOp) (s : PState) : PState :=
  { s with mode := PMode.input, inputbuf := [], op := o }

/-- Entering Input mode for `o`, typing `text`, and pressing Enter: after
`prepinputmode` the typed characters leave the buffer equal to `text`, and
KEY_RETURN runs `exitinputmode` on the pending operation. -/
def typeAndCommit (rc : List Char → Option (List Char → Bool))
    (mt : List (List Char × List Char))
    (fuel : Nat) (o : FilterOp) (text : List Char) (s : PState) : PState :=
  exitinputmode rc mt fuel o { prepinputmode o s with inputbuf := text }

/-! ## Concrete fixtures used by witnesses and counterexamples -/

/-- A catalog entry named `lua`. -/
def pkgLua : Pkg := { name := "lua".data, desc := "embeddable language".data, vers := "5.4".data }

/-- A catalog entry named `gcc`. -/
def pkgGcc : Pkg := { name := "gcc".data, desc := "compiler".data, vers := "13".data }

/-- The entry of the §8 sort scenario named `bash`. -/
def pkgBash : Pkg := { name := "bash".data, desc := "shell".data, vers := "5".data }

/-- The entry of the §8 sort scenario named `zsh`. -/
def pkgZsh : Pkg := { name := "zsh".data, desc := "shell".data, vers := "5.9".data }

/-- An entry whose name contains the literal token `%p`. -/
def pkgPctP : Pkg := { name := "a%pb".data, desc := [], vers := [] }

/-- A regex engine for which every compilation fails with `regex_error`. -/
def rcNone : List Char → Option (List Char → Bool) := fun _ => none

/-- A regex engine whose compiled patterns never match any text. -/
def rcNever : List Char → Option (List Char → Bool) := fun _ => some (fun _ => false)

/-- A quiescent base state: default attribute selection, Standard mode,
everything else empty. -/
def baseState : PState := {
  attrlist := Filter.clearattrs
  filteredpackages := []
  searchphrases := []
  focusedindex := 0
  sortedby := Attr.aName
  coloredby := Attr.aName
  opqueue := []
  mode := PMode.standard
  op := FilterOp.opNone
  inputbuf := []
  hisfilter := []
  hissort := []
  hissearch := []
  hiscolorcode := []
  hisexec := []
  hisMacroOp := []
  executedCmds := [] }

/-- State for the C1 evaluation: View holds `lua` and `gcc`. -/
def sC1 : PState := { baseState with filteredpackages := [pkgLua, pkgGcc] }

/-- Claim C1: the removal loop removes exactly the entries the exclusion
predicate holds for — in particular a negated filter never retains an entry
whose active-attribute text matches the pattern.  The code violates the
negated half: committing `n!:lua` (fields `n`, negated, phrase `lua`, taken
by the substring branch since `lua` lies inside the `[:alnum:]` character
set) erases with `Filter::matches`, which filter.cpp makes true exactly for
the entries whose attributes do NOT contain the phrase — so the matching
entry `lua` is retained (and the non-matching `gcc` removed), the opposite
of the claim. -/
theorem filter_negated_retains_match :
  parseFilter "n!:lua".data = ("n".data, true, "lua".data)
  ∧ Filter.setattrs "n".data = [Attr.aName]
  ∧ resimpleMatch "lua".data = true
  ∧ containsCL "lua".data pkgLua.name = true
  ∧ containsCL "lua".data pkgGcc.name = false
  ∧ (filterpackages rcNone "n!:lua".data sC1).filteredpackages = [pkgLua] := by
  decide

/-- Claim C2: the committed search should move focus to the first entry
after the focused one in which some active attribute contains the phrase
(wrapping once).  The code violates the match sense: `find_if` runs on
`Filter::matches` itself — the exclusion predicate, true when NO attribute
contains the phrase — so searching `lua` in View `[lua, gcc]` with focus 0
lands on index 1 (`gcc`, which does not contain `lua`) instead of wrapping
to index 0 (`lua`, which does). -/
theorem search_moves_to_nonmatching :
  sC1.focusedindex = 0
  ∧ containsCL "lua".data (lowerL pkgGcc.name) = false
  ∧ containsCL "lua".data (lowerL pkgGcc.desc) = false
  ∧ containsCL "lua".data (lowerL pkgLua.name) = true
  ∧ (searchpackages "lua".data sC1).focusedindex = 1 := by
  decide

/-- Claim C5: alphanumeric-only patterns should take the literal substring
branch.  The mode test `regex_match(searchphrase, resimple)` uses the
pattern `[:alnum:]+` — a bracket expression over the characters
`: a l n u m`, not the POSIX class — so the all-alphanumeric pattern `bash`
fails it and is routed to the regex engine: with a failing engine the filter
is discarded, with a (never-matching) engine the whole View is erased, two
observably different outcomes that a substring filter (which consults no
engine) could not produce. -/
theorem filter_alnum_mode_misfires :
  "bash".data.all Char.isAlphanum = true
  ∧ resimpleMatch "bash".data = false
  ∧ (filterpackages rcNone "n:bash".data sC1).filteredpackages = sC1.filteredpackages
  ∧ (filterpackages rcNone "n:bash".data sC1).searchphrases = sC1.searchphrases
  ∧ (filterpackages rcNever "n:bash".data sC1).filteredpackages = []
  ∧ (filterpackages rcNever "n:bash".data sC1).searchphrases = "n:bash".data := by
  decide

/-- State for the C6 counterexample: a previously narrowed selection
(description only, as a prior `d:` filter leaves it). -/
def sC6 : PState := { baseState with attrlist := [Attr.aDesc] }

/-- Claim C6 counterexample: a committed filter with an empty fields prefix
does NOT leave the previously active FilterSelection untouched —
`Filter::clearattrs()` runs unconditionally before the prefix is parsed, so
the bare pattern `lua` resets the selection from `[description]` to the
default `[name, description]`. -/
theorem filter_empty_fields_cex :
  sC6.attrlist = [Attr.aDesc]
  ∧ parseFilter "lua".data = ([], false, "lua".data)
  ∧ (filterpackages rcNone "lua".data sC6).attrlist = [Attr.aName, Attr.aDesc]
  ∧ (filterpackages rcNone "lua".data sC6).attrlist ≠ sC6.attrlist := by
  decide

/-- Claim C6 (amended): for every committed filter input whose fields
prefix is empty, the FilterSelection afterwards is the default
`{name, description}` (clearattrs runs unconditionally); only a non-empty
fields prefix can produce a non-default selection. -/
theorem filter_empty_fields_defaults
    (rc : List Char → Option (List Char → Bool)) (str ph : List Char)
    (ng : Bool) (s : PState)
    (hp : parseFilter str = ([], ng, ph)) :
    (filterpackages rc str s).attrlist = Filter.clearattrs := by
  by_cases h1 : ph.isEmpty <;> by_cases h2 : resimpleMatch ph <;>
    cases hrc : rc ph <;>
    simp [filterpackages, hp, h1, h2, hrc]

/-- Witness for the amended C6 at the counterexample input. -/
theorem filter_empty_fields_defaults_witness :
    (filterpackages rcNone "lua".data sC6).attrlist = Filter.clearattrs :=
  filter_empty_fields_defaults rcNone "lua".data "lua".data false sC6 (by decide)

/-- State for the C4 witness: a View and a non-empty recorded filter
description. -/
def sC4 : PState :=
  { baseState with filteredpackages := [pkgLua, pkgGcc], searchphrases := "n:u".data }

/-- Claim C4: a committed filter whose pattern fails to compile
(`regex_error`, modelled by the engine returning `none`) is discarded
silently and atomically — the View sequence and the recorded filter
description are exactly as before the attempt.  (The pattern must fall
outside the `[:alnum:]` set to reach the engine at all; patterns inside it
are always syntactically valid.) -/
theorem filterpackages_invalid_atomic
    (rc : List Char → Option (List Char → Bool)) (str flds ph : List Char)
    (ng : Bool) (s : PState)
    (hp : parseFilter str = (flds, ng, ph))
    (hsimple : resimpleMatch ph = false)
    (hrc : rc ph = none) :
    (filterpackages rc str s).filteredpackages = s.filteredpackages
    ∧ (filterpackages rc str s).searchphrases = s.searchphrases := by
  by_cases h1 : ph.isEmpty <;> by_cases h2 : flds.isEmpty <;>
    simp [filterpackages, hp, h1, h2, hsimple, hrc]

/-- Witness for C4: the unbalanced bracket pattern `[lua` (filter input
`d:[lua`) leaves View and description of `sC4` unchanged. -/
theorem filterpackages_invalid_atomic_witness :
    (filterpackages rcNone "d:[lua".data sC4).filteredpackages = sC4.filteredpackages
    ∧ (filterpackages rcNone "d:[lua".data sC4).searchphrases = sC4.searchphrases :=
  filterpackages_invalid_atomic rcNone "d:[lua".data "d".data "[lua".data false sC4
    (by decide) (by decide) rfl

/-- Claim C10: the committed search computes its scan start as focused
index + 1 with no emptiness guard, so under the pane invariant (focused
index within bounds when the View is non-empty, 0 when it is empty) the
start position is within bounds — at most the length — exactly when the
View has at least one entry; on an empty View the start iterator exceeds
the end of the sequence. -/
theorem searchpackages_start_bound (v : List Pkg) (f : Nat)
    (hf : f < v.length ∨ (v = [] ∧ f = 0)) :
    searchStart f ≤ v.length ↔ v ≠ [] := by
  unfold searchStart
  constructor
  · intro hle hv
    subst hv
    simp at hle
  · intro hv
    rcases hf with h | ⟨h, _⟩
    · omega
    · exact absurd h hv

/-- Witness for C10 on a one-entry View. -/
theorem searchpackages_start_bound_witness :
    searchStart 0 ≤ [pkgLua].length ↔ [pkgLua] ≠ [] :=
  searchpackages_start_bound [pkgLua] 0 (Or.inl (by decide))

/-! ## Order lemmas for the sort comparator -/

theorem strLe_total (x : List Char) : ∀ y, strLe x y = true ∨ strLe y x = true := by
  induction x with
  | nil => intro y; left; rfl
  | cons a as ih =>
    intro y
    cases y with
    | nil => right; rfl
    | cons b bs =>
      simp only [strLe]
      rcases Nat.lt_trichotomy a.toNat b.toNat with h | h | h
      · left
        rw [if_pos h]
      · have h1 : ¬a.toNat < b.toNat := by omega
        have h2 : ¬b.toNat < a.toNat := by omega
        rw [if_neg h1, if_neg h2, if_neg h2, if_neg h1]
        exact ih bs
      · right
        rw [if_pos h]

theorem strLe_trans (x : List Char) :
    ∀ y z, strLe x y = true → strLe y z = true → strLe x z = true := by
  induction x with
  | nil => intro y z _ _; rfl
  | cons a as ih =>
    intro y z h1 h2
    cases y with
    | nil => exact absurd h1 (by simp [strLe])
    | cons b bs =>
      cases z with
      | nil => exact absurd h2 (by simp [strLe])
      | cons c cs =>
        simp only [strLe] at h1 h2 ⊢
        split at h1
        · -- a < b
          rename_i hab
          split at h2
          · rename_i hbc
            rw [if_pos (by omega : a.toNat < c.toNat)]
          · split at h2
            · exact absurd h2 (by simp)
            · rename_i hbc hcb
              rw [if_pos (by omega : a.toNat < c.toNat)]
        · split at h1
          · exact absurd h1 (by simp)
          · rename_i hab hba
            split at h2
            · rename_i hbc
              rw [if_pos (by omega : a.toNat < c.toNat)]
            · split at h2
              · exact absurd h2 (by simp)
              · rename_i hbc hcb
                rw [if_neg (by omega : ¬a.toNat < c.toNat),
                    if_neg (by omega : ¬c.toNat < a.toNat)]
                exact ih bs cs h1 h2

instance (a : Attr) : IsTotal Pkg (attrLe a) :=
  ⟨fun x y => strLe_total (x.getattr a) (y.getattr a)⟩

instance (a : Attr) : IsTrans Pkg (attrLe a) :=
  ⟨fun x y z h1 h2 => strLe_trans (x.getattr a) (y.getattr a) (z.getattr a) h1 h2⟩

/-- Claim C3: a committed sort input whose first valid character maps to
attribute `a` sets the active sort attribute to `a` and reorders the View
into an ascending lexicographic order on the text of attribute `a` (a
permutation of the previous View sorted by `compareByAttribute`). -/
theorem sortpackages_sets_and_sorts (str : List Char) (s : PState) (a : Attr)
    (h1 : firstattr str = a) (h2 : a ≠ Attr.aNone) :
    (sortpackages str s).sortedby = a
    ∧ List.Sorted (attrLe a) (sortpackages str s).filteredpackages
    ∧ (sortpackages str s).filteredpackages.Perm s.filteredpackages := by
  have hne : str.isEmpty = false := by
    cases str with
    | nil => exact absurd h1.symm h2
    | cons c t => rfl
  refine ⟨?_, ?_, ?_⟩ <;>
    simp only [sortpackages, hne, Bool.false_eq_true, if_false, h1, if_neg h2]
  · exact List.sorted_insertionSort (attrLe a) s.filteredpackages
  · exact List.perm_insertionSort (attrLe a) s.filteredpackages

/-- View for the C3 witness, the §8 scenario catalog out of order. -/
def sC3 : PState := { baseState with filteredpackages := [pkgZsh, pkgBash] }

/-- Witness for C3: sort input `n` orders the scenario View by name. -/
theorem sortpackages_sets_and_sorts_witness :
    (sortpackages "n".data sC3).sortedby = Attr.aName
    ∧ List.Sorted (attrLe Attr.aName) (sortpackages "n".data sC3).filteredpackages
    ∧ (sortpackages "n".data sC3).filteredpackages.Perm sC3.filteredpackages :=
  sortpackages_sets_and_sorts "n".data sC3 Attr.aName (by decide) (by decide)

/-- Claim C7: the Queue never holds duplicate entries with the same
identity key.  The hypothesis `hinj` states that the key (name) identifies
entries among the reachable candidates — which `Program::loadpkgs`
establishes for the whole catalog by dropping same-name packages — so the
pointer comparison of the source (`std::find` over `Package *`) and the
value comparison of the embedding coincide.  The append path preserves
key-uniqueness, and a second press on the same focused entry (focus stays
put exactly when it is on the last View entry, where `move(1)` clamps)
leaves the Queue unchanged. -/
theorem queueadd_nodup_invariant (s : PState)
    (hnd : (s.opqueue.map Pkg.name).Nodup)
    (hinj : ∀ q ∈ s.opqueue, q.name = (focusedPkg s).name → q = focusedPkg s) :
    ((queueadd s).opqueue.map Pkg.name).Nodup
    ∧ (s.focusedindex + 1 = s.filteredpackages.length →
        (queueadd (queueadd s)).opqueue = (queueadd s).opqueue) := by
  by_cases hlen : s.filteredpackages.isEmpty
  · have hz : s.filteredpackages.length = 0 := by
      simpa [List.isEmpty_iff, List.length_eq_zero] using hlen
    have he : queueadd s = s := by simp [queueadd, hlen]
    constructor
    · rw [he]; exact hnd
    · intro hidx; omega
  · by_cases hmem : focusedPkg s ∈ s.opqueue
    · have he : queueadd s = s := by simp [queueadd, hlen, hmem]
      constructor
      · rw [he]; exact hnd
      · intro _; simp only [he]
    · have he : queueadd s =
          { s with opqueue := s.opqueue ++ [focusedPkg s],
                   focusedindex := min (s.focusedindex + 1) (s.filteredpackages.length - 1) } := by
        simp [queueadd, hlen, hmem]
      constructor
      · rw [he]
        simp only [List.map_append, List.map_cons, List.map_nil]
        rw [List.nodup_append]
        refine ⟨hnd, List.nodup_singleton _, ?_⟩
        intro x hx hx1
        simp only [List.mem_singleton] at hx1
        obtain ⟨q, hq, hqn⟩ := List.mem_map.mp hx
        subst hx1
        have hqe : q = focusedPkg s := hinj q hq hqn
        exact hmem (hqe ▸ hq)
      · intro hidx
        have hlen1 : 1 ≤ s.filteredpackages.length := by
          rcases Nat.eq_zero_or_pos s.filteredpackages.length with h | h
          · rw [List.length_eq_zero] at h
            rw [h] at hlen
            exact absurd rfl hlen
          · exact h
        have hmin : min (s.focusedindex + 1) (s.filteredpackages.length - 1)
            = s.focusedindex := by omega
        rw [he, hmin]
        have hm2 : focusedPkg s ∈ s.opqueue ++ [focusedPkg s] := by
          simp
        simp [queueadd, focusedPkg, hlen, hm2]

/-- State for the C7 witness: a one-entry View focused on its only entry,
empty Queue. -/
def sC7 : PState := { baseState with filteredpackages := [pkgLua] }

/-- Witness for C7: pressing the queue-append key twice on the single
focused entry queues it once; names stay duplicate-free. -/
theorem queueadd_nodup_invariant_witness :
    (((queueadd sC7).opqueue.map Pkg.name).Nodup)
    ∧ (sC7.focusedindex + 1 = sC7.filteredpackages.length →
        (queueadd (queueadd sC7)).opqueue = (queueadd sC7).opqueue) :=
  queueadd_nodup_invariant sC7 (by decide) (by decide)

/-- Lemma: `Program::exitinputmode` overwrites mode and pending operation before
anything else, so the state it produces does not depend on the mode and
operation fields it was entered with. -/
theorem exitinputmode_mode_op_irrel
    (rc : List Char → Option (List Char → Bool))
    (mt : List (List Char × List Char)) (n : Nat) (o : FilterOp) (s : PState)
    (m : PMode) (p : FilterOp) (b : List Char) :
    exitinputmode rc mt n o { s with mode := m, op := p, inputbuf := b }
      = exitinputmode rc mt n o { s with inputbuf := b } := by
  cases n <;> rfl

/-- The dead-chain fold: once a part has aborted the macro chain, the
remaining parts change nothing. -/
theorem macroPartGo_fold_dead (mt : List (List Char × List Char))
    (step : FilterOp → PState → PState) (st : PState) :
    ∀ parts : List (List Char),
      List.foldl (macroPartGo mt step) (st, false) parts = (st, false) := by
  intro parts
  induction parts with
  | nil => rfl
  | cons q qs ih => simpa [macroPartGo] using ih

/-- Claim C8: a macro part that resolves in the table to a command whose
first character selects a valid operation produces exactly the state change
of entering Input mode for that operation, typing the rest of the command,
and pressing Enter (`typeAndCommit`); an unresolved part aborts the chain,
leaving the state the already-applied parts produced.  (The per-operation
history browse cursors, reset on entering Input mode, are transient
UI state outside the modelled program state.) -/
theorem execmacro_part_refines
    (rc : List Char → Option (List Char → Bool))
    (mt : List (List Char × List Char)) (n : Nat)
    (part cmd : List Char) (rest : List (List Char)) (s : PState) :
    (lookupMT mt part = some cmd → strtoopt (cmd.take 1) ≠ FilterOp.opNone →
      macroPartGo mt (fun o2 st => exitinputmode rc mt n o2 st) (s, true) part
        = (typeAndCommit rc mt n (strtoopt (cmd.take 1)) (cmd.drop 1) s, true))
    ∧ (lookupMT mt part = none →
      (List.foldl (macroPartGo mt (fun o2 st => exitinputmode rc mt n o2 st))
          (s, true) (part :: rest)).fst = s) := by
  constructor
  · intro hlk hop
    simp only [macroPartGo, hlk, if_neg hop]
    have h := exitinputmode_mode_op_irrel rc mt n (strtoopt (cmd.take 1)) s
      PMode.input (strtoopt (cmd.take 1)) (cmd.drop 1)
    unfold typeAndCommit prepinputmode
    exact congrArg (fun x => (x, true)) h.symm
  · intro hlk
    simp only [List.foldl_cons, macroPartGo, hlk]
    rw [macroPartGo_fold_dead]

/-- The macro table of the §8 scenario. -/
def mtEx : List (List Char × List Char) := [("1".data, "/n:bash".data)]

/-- Witness for C8: with table `{"1": "/n:bash"}`, running macro part `1`
equals committing `n:bash` in Filter mode. -/
theorem execmacro_part_refines_witness :
    macroPartGo mtEx (fun o2 st => exitinputmode rcNone mtEx 3 o2 st) (sC1, true) "1".data
      = (typeAndCommit rcNone mtEx 3 (strtoopt ("/n:bash".data.take 1))
          ("/n:bash".data.drop 1) sC1, true) :=
  (execmacro_part_refines rcNone mtEx 3 "1".data "/n:bash".data [] sC1).1
    (by decide) (by decide)

/-! ## Lemmas about the `%p` substitution loop -/

/-- Does the text start with `p` (the only way appending it after a `%` can
splice a new occurrence). -/
def headIsP : List Char → Bool
  | [] => false
  | c :: _ => c == 'p'

theorem not_occ_head (c p : Char) (hb : ¬((c == '%' && p == 'p') = true)) :
    (c == '%') = false ∨ (p == 'p') = false := by
  by_cases h : (c == '%') = true
  · by_cases h2 : (p == 'p') = true
    · exact absurd (by rw [h, h2]; rfl) hb
    · exact Or.inr (Bool.not_eq_true _ |>.mp h2)
  · exact Or.inl (Bool.not_eq_true _ |>.mp h)

theorem replaceEveryOcc_cons_pass (pkgs : List Char) (c : Char) (t : List Char)
    (h : (c == '%') = false ∨ headIsP t = false) :
    replaceEveryOcc pkgs (c :: t) = c :: replaceEveryOcc pkgs t := by
  cases t with
  | nil => rfl
  | cons p r =>
    have hc : (c == '%' && p == 'p') = false := by
      rcases h with h | h
      · simp [h]
      · simp only [headIsP] at h
        simp [h]
    simp [replaceEveryOcc, hc]

theorem countOcc_cons_pass (c : Char) (t : List Char)
    (h : (c == '%') = false ∨ headIsP t = false) :
    countOcc (c :: t) = countOcc t := by
  cases t with
  | nil => rfl
  | cons p r =>
    have hc : (c == '%' && p == 'p') = false := by
      rcases h with h | h
      · simp [h]
      · simp only [headIsP] at h
        simp [h]
    simp [countOcc, hc]

theorem replaceEveryOcc_append_nopct (pkgs P B : List Char)
    (hP : ∀ c ∈ P, (c == '%') = false) :
    replaceEveryOcc pkgs (P ++ B) = P ++ replaceEveryOcc pkgs B := by
  induction P with
  | nil => rfl
  | cons c P' ih =>
    rw [List.cons_append,
        replaceEveryOcc_cons_pass pkgs c (P' ++ B)
          (Or.inl (hP c (List.mem_cons_self c P'))),
        ih (fun d hd => hP d (List.mem_cons_of_mem c hd))]
    rfl

theorem countOcc_append_nopct (P B : List Char)
    (hP : ∀ c ∈ P, (c == '%') = false) :
    countOcc (P ++ B) = countOcc B := by
  induction P with
  | nil => rfl
  | cons c P' ih =>
    rw [List.cons_append,
        countOcc_cons_pass c (P' ++ B) (Or.inl (hP c (List.mem_cons_self c P')))]
    exact ih (fun d hd => hP d (List.mem_cons_of_mem c hd))

theorem headIsP_append (P B : List Char) (h : P ≠ []) :
    headIsP (P ++ B) = headIsP P := by
  cases P with
  | nil => exact absurd rfl h
  | cons c t => rfl

theorem replOcc_head_pass (pkgs : List Char) (hne : pkgs ≠ [])
    (hhp : headIsP pkgs = false) :
    ∀ t, headIsP t = false → headIsP (replOcc pkgs t) = false := by
  intro t ht
  cases t with
  | nil => exact ht
  | cons c t' =>
    cases t' with
    | nil => exact ht
    | cons p r =>
      by_cases hb : (c == '%' && p == 'p') = true
      · rw [show replOcc pkgs (c :: p :: r) = pkgs ++ r from by simp [replOcc, hb]]
        rw [headIsP_append pkgs r hne]
        exact hhp
      · rw [show replOcc pkgs (c :: p :: r) = c :: replOcc pkgs (p :: r) from by
          simp [replOcc, hb]]
        exact ht

theorem replOcc_preserves (pkgs : List Char) (h1 : pkgs ≠ [])
    (h2 : ∀ c ∈ pkgs, (c == '%') = false) (h3 : headIsP pkgs = false) :
    ∀ s i, findOcc s = some i →
      replaceEveryOcc pkgs (replOcc pkgs s) = replaceEveryOcc pkgs s
      ∧ countOcc (replOcc pkgs s) + 1 = countOcc s := by
  intro s
  induction s using findOcc.induct with
  | case1 => intro i hi; simp [findOcc] at hi
  | case2 c => intro i hi; simp [findOcc] at hi
  | case3 c p r hb =>
    intro i hi
    obtain ⟨hc1, hc2⟩ : c = '%' ∧ p = 'p' := by simpa using hb
    subst hc1; subst hc2
    have hro : replOcc pkgs ('%' :: 'p' :: r) = pkgs ++ r := by simp [replOcc]
    have hre : replaceEveryOcc pkgs ('%' :: 'p' :: r)
        = pkgs ++ replaceEveryOcc pkgs r := by simp [replaceEveryOcc]
    have hco : countOcc ('%' :: 'p' :: r) = countOcc r + 1 := by simp [countOcc]
    constructor
    · rw [hro, replaceEveryOcc_append_nopct pkgs pkgs r h2, hre]
    · rw [hro, countOcc_append_nopct pkgs r h2, hco]
  | case4 c p r hb ih =>
    intro i hi
    have hj : ∃ j, findOcc (p :: r) = some j := by
      rw [show findOcc (c :: p :: r)
            = (findOcc (p :: r)).map (fun i => i + 1) from by simp [findOcc, hb]] at hi
      rcases Option.map_eq_some'.mp hi with ⟨j, hj, _⟩
      exact ⟨j, hj⟩
    obtain ⟨j, hj⟩ := hj
    have hpass : (c == '%') = false ∨ headIsP (p :: r) = false := by
      rcases not_occ_head c p hb with h | h
      · exact Or.inl h
      · exact Or.inr h
    have hIH := ih j hj
    have hro : replOcc pkgs (c :: p :: r) = c :: replOcc pkgs (p :: r) := by
      simp [replOcc, hb]
    have hpass2 : (c == '%') = false ∨ headIsP (replOcc pkgs (p :: r)) = false := by
      rcases hpass with h | h
      · exact Or.inl h
      · exact Or.inr (replOcc_head_pass pkgs h1 h3 (p :: r) h)
    constructor
    · rw [hro, replaceEveryOcc_cons_pass pkgs c (replOcc pkgs (p :: r)) hpass2,
          replaceEveryOcc_cons_pass pkgs c (p :: r) hpass, hIH.1]
    · rw [hro, countOcc_cons_pass c (replOcc pkgs (p :: r)) hpass2,
          countOcc_cons_pass c (p :: r) hpass]
      exact hIH.2

theorem findOcc_none_id (pkgs : List Char) :
    ∀ s, findOcc s = none → replaceEveryOcc pkgs s = s ∧ countOcc s = 0 := by
  intro s
  induction s using findOcc.induct with
  | case1 => intro _; exact ⟨rfl, rfl⟩
  | case2 c => intro _; exact ⟨rfl, rfl⟩
  | case3 c p r hb => intro hf; simp [findOcc, hb] at hf
  | case4 c p r hb ih =>
    intro hf
    have hf2 : findOcc (p :: r) = none := by
      rw [show findOcc (c :: p :: r)
            = (findOcc (p :: r)).map (fun i => i + 1) from by simp [findOcc, hb]] at hf
      exact Option.map_eq_none'.mp hf
    have hpass : (c == '%') = false ∨ headIsP (p :: r) = false := by
      rcases not_occ_head c p hb with h | h
      · exact Or.inl h
      · exact Or.inr h
    have hIH := ih hf2
    constructor
    · rw [replaceEveryOcc_cons_pass pkgs c (p :: r) hpass, hIH.1]
    · rw [countOcc_cons_pass c (p :: r) hpass]
      exact hIH.2

theorem findOcc_some_count :
    ∀ s : List Char, ∀ i, findOcc s = some i → 1 ≤ countOcc s := by
  intro s
  induction s using findOcc.induct with
  | case1 => intro i hi; simp [findOcc] at hi
  | case2 c => intro i hi; simp [findOcc] at hi
  | case3 c p r hb =>
    intro i hi
    simp [countOcc, show (c == '%' && p == 'p') = true from hb]
  | case4 c p r hb ih =>
    intro i hi
    have hj : ∃ j, findOcc (p :: r) = some j := by
      rw [show findOcc (c :: p :: r)
            = (findOcc (p :: r)).map (fun i => i + 1) from by simp [findOcc, hb]] at hi
      rcases Option.map_eq_some'.mp hi with ⟨j, hj, _⟩
      exact ⟨j, hj⟩
    obtain ⟨j, hj⟩ := hj
    have hpass : (c == '%') = false ∨ headIsP (p :: r) = false := by
      rcases not_occ_head c p hb with h | h
      · exact Or.inl h
      · exact Or.inr h
    rw [countOcc_cons_pass c (p :: r) hpass]
    exact ih j hj

theorem substIter_correct (pkgs : List Char) (h1 : pkgs ≠ [])
    (h2 : ∀ c ∈ pkgs, (c == '%') = false) (h3 : headIsP pkgs = false) :
    ∀ s, substIter pkgs (countOcc s) s = some (replaceEveryOcc pkgs s) := by
  intro s
  generalize hk : countOcc s = k
  induction k generalizing s with
  | zero =>
    cases hf : findOcc s with
    | none =>
      rw [(findOcc_none_id pkgs s hf).1]
      simp [substIter, hf]
    | some i =>
      have := findOcc_some_count s i hf
      omega
  | succ k ih =>
    cases hf : findOcc s with
    | none =>
      have := (findOcc_none_id pkgs s hf).2
      omega
    | some i =>
      have hp := replOcc_preserves pkgs h1 h2 h3 s i hf
      have hk2 : countOcc (replOcc pkgs s) = k := by omega
      simp only [substIter, hf]
      rw [← hp.1]
      exact ih (replOcc pkgs s) hk2

theorem findOcc_cons_some (c : Char) (X : List Char)
    (h : findOcc X ≠ none) : findOcc (c :: X) ≠ none := by
  cases X with
  | nil => simp [findOcc] at h
  | cons q w =>
    by_cases hb : (c == '%' && q == 'p') = true
    · simp [findOcc, hb]
    · rw [show findOcc (c :: q :: w)
            = (findOcc (q :: w)).map (fun i => i + 1) from by simp [findOcc, hb]]
      intro hn
      exact h (Option.map_eq_none'.mp hn)

theorem findOcc_append_some (B : List Char) :
    ∀ P : List Char, findOcc P ≠ none → findOcc (P ++ B) ≠ none := by
  intro P
  induction P using findOcc.induct with
  | case1 => intro h; simp [findOcc] at h
  | case2 c => intro h; simp [findOcc] at h
  | case3 c p r hb =>
    intro _
    simp [findOcc, hb]
  | case4 c p r hb ih =>
    intro h
    have h2 : findOcc (p :: r) ≠ none := by
      rw [show findOcc (c :: p :: r)
            = (findOcc (p :: r)).map (fun i => i + 1) from by simp [findOcc, hb]] at h
      intro hn
      exact h (by rw [hn]; rfl)
    have h3 := ih h2
    simpa [List.cons_append] using findOcc_cons_some c ((p :: r) ++ B) h3

theorem replOcc_keeps (pkgs : List Char) (hp : findOcc pkgs ≠ none) :
    ∀ s, findOcc s ≠ none → findOcc (replOcc pkgs s) ≠ none := by
  intro s
  induction s using findOcc.induct with
  | case1 => intro h; simp [findOcc] at h
  | case2 c => intro h; simp [findOcc] at h
  | case3 c p r hb =>
    intro _
    rw [show replOcc pkgs (c :: p :: r) = pkgs ++ r from by simp [replOcc, hb]]
    exact findOcc_append_some r pkgs hp
  | case4 c p r hb ih =>
    intro h
    have h2 : findOcc (p :: r) ≠ none := by
      rw [show findOcc (c :: p :: r)
            = (findOcc (p :: r)).map (fun i => i + 1) from by simp [findOcc, hb]] at h
      intro hn
      exact h (by rw [hn]; rfl)
    rw [show replOcc pkgs (c :: p :: r) = c :: replOcc pkgs (p :: r) from by
      simp [replOcc, hb]]
    exact findOcc_cons_some c (replOcc pkgs (p :: r)) (ih h2)

theorem substIter_diverges (pkgs : List Char) (hp : findOcc pkgs ≠ none) :
    ∀ m s2, findOcc s2 ≠ none → substIter pkgs m s2 = none := by
  intro m
  induction m with
  | zero =>
    intro s2 hs
    cases hf : findOcc s2 with
    | none => exact absurd hf hs
    | some i => simp [substIter, hf]
  | succ m ih =>
    intro s2 hs
    cases hf : findOcc s2 with
    | none => exact absurd hf hs
    | some i =>
      simp only [substIter, hf]
      exact ih (replOcc pkgs s2) (replOcc_keeps pkgs hp s2 hs)

/-- Claim C9 counterexample: the claim fails as stated.  (1) With an empty
Queue — so that no queued name contains `%p`, vacuously — the loop on input
`%%pp` terminates with the empty string, but replacing every occurrence of
`%p` in the input (there is exactly one, at index 1) with the empty name
list yields `%p`: erasing the first occurrence splices the surrounding `%`
and `p` into a new occurrence, which the restarted scan also replaces.
(2) With a queued entry named `a%pb` the name list contains `%p`, yet on an
input without any occurrence the loop terminates immediately, against the
unconditional non-termination half of the claim. -/
theorem execmd_subst_cex :
    queueNames [] = []
    ∧ substIter (queueNames []) 2 "%%pp".data = some []
    ∧ replaceEveryOcc (queueNames []) "%%pp".data = "%p".data
    ∧ (([] : List Char) ≠ "%p".data)
    ∧ containsCL "%p".data (queueNames [pkgPctP]) = true
    ∧ substIter (queueNames [pkgPctP]) 5 "ls".data = some "ls".data := by
  decide

/-- Claim C9 (amended): the substitution loop performs iterated
leftmost-first replacement.  When the space-joined name list is non-empty,
contains no `%` character, and does not begin with `p`, no replacement can
splice a new `%p` occurrence, the loop terminates in exactly one step per
occurrence of the input, and the result is the input with every occurrence
of `%p` replaced by the name list; and whenever the name list contains `%p`
and the input contains at least one occurrence, the loop never terminates
(no fuel suffices). -/
theorem execmd_subst_amended (pkgs s pkgs2 s2 : List Char)
    (h1 : pkgs ≠ []) (h2 : ∀ c ∈ pkgs, (c == '%') = false)
    (h3 : headIsP pkgs = false)
    (h4 : findOcc pkgs2 ≠ none) (h5 : findOcc s2 ≠ none) :
    substIter pkgs (countOcc s) s = some (replaceEveryOcc pkgs s)
    ∧ ∀ m, substIter pkgs2 m s2 = none :=
  ⟨substIter_correct pkgs h1 h2 h3 s,
   fun m => substIter_diverges pkgs2 h4 m s2 h5⟩

/-- Witness for the amended C9: Queue `[gcc]` on input `rm -f %p`, and a
Queue whose name list contains `%p` on an input with an occurrence. -/
theorem execmd_subst_amended_witness :
    substIter (queueNames [pkgGcc]) (countOcc "rm -f %p".data) "rm -f %p".data
      = some (replaceEveryOcc (queueNames [pkgGcc]) "rm -f %p".data)
    ∧ ∀ m, substIter (queueNames [pkgPctP]) m "rm %p".data = none :=
  execmd_subst_amended (queueNames [pkgGcc]) "rm -f %p".data
    (queueNames [pkgPctP]) "rm %p".data
    (by decide) (by decide) (by decide) (by decide) (by decide)
